import Mathlib

/-!
Shallow embedding of the sort-merge-join radix/range clustering pipeline
(`radix_cluster_sort.hpp`) and of the per-column selectivity estimator
(`column_statistics.cpp`) of the surveyed column-store engine.

Machine integers are modelled as `Int`/`Nat`, with an explicit reduction
modulo `2 ^ 32` where the C++ code converts to `uint32_t`.  The estimator's
`float` arithmetic is modelled exactly over `ℚ`; every computation a settled
claim touches is exact in `float` as well at the inputs considered.
-/

namespace Opossum

/-- Materialized record of `column_materializer.hpp`: a value together with
its row id (chunk index, offset).  The value type parameter `T` is
instantiated at the arithmetic case, modelled by `Int`. -/
structure Entry where
  value : Int
  row_id : Nat × Nat
deriving DecidableEq

instance : Inhabited Entry := ⟨⟨0, (0, 0)⟩⟩

/-- Materialized column (one chunk or one cluster): a sequence of records. -/
abbrev MaterializedColumn := List Entry

/-- Materialized column list: one `MaterializedColumn` per chunk. -/
abbrev MaterializedColumnList := List MaterializedColumn

/-- Conversion `static_cast<uint32_t>(value)` of a signed integer value:
reduction modulo `2 ^ 32`. -/
def toU32 (v : Int) : Nat := (v % (4294967296 : Int)).toNat

/-- Embeds `RadixClusterSort::get_radix` (arithmetic overload):
`static_cast<uint32_t>(value) & radix_bitmask`. -/
def get_radix (value : Int) (radix_bitmask : Nat) : Nat :=
  Nat.land (toU32 value) radix_bitmask

/-- Embeds `RadixClusterSort::_materialized_table_size`: the total record
count of a materialized column list. -/
def _materialized_table_size (table : MaterializedColumnList) : Nat :=
  (table.map List.length).sum

/-- Embeds `RadixClusterSort::_concatenate_chunks`: all input chunks
concatenated into a single output chunk. -/
def _concatenate_chunks (input_chunks : MaterializedColumnList) : MaterializedColumnList :=
  [input_chunks.flatten]

/-- One append performed by a clustering job: entry `e` is pushed onto
cluster `i` of the output table (source:
`(*output_table)[cluster_id]->push_back(entry)` under that cluster's
mutex). -/
def appendAt (output_table : MaterializedColumnList) (i : Nat) (e : Entry) :
    MaterializedColumnList :=
  output_table.set i (output_table.getD i [] ++ [e])

/-- Embeds `RadixClusterSort::_cluster`: every entry of every input chunk is
moved to the cluster `clusterer` designates for its value.  The parallel jobs
append under per-cluster mutexes with an unspecified interleaving; the claims
settled here (cluster membership and sizes) are interleaving-independent, so
the jobs are modelled in sequential chunk order. -/
def _cluster (cluster_count : Nat) (clusterer : Int → Nat)
    (input_chunks : MaterializedColumnList) : MaterializedColumnList :=
  input_chunks.flatten.foldl (fun acc e => appendAt acc (clusterer e.value) e)
    (List.replicate cluster_count [])

/-- Clustering function used by `RadixClusterSort::_radix_cluster`:
`get_radix value radix_bitmask` with `radix_bitmask = cluster_count - 1`. -/
def radix_clusterer (cluster_count : Nat) (value : Int) : Nat :=
  get_radix value (cluster_count - 1)

/-- Embeds `RadixClusterSort::_radix_cluster`. -/
def _radix_cluster (cluster_count : Nat) (input_chunks : MaterializedColumnList) :
    MaterializedColumnList :=
  _cluster cluster_count (radix_clusterer cluster_count) input_chunks

/-- Sampling position as the spec words it (section 4.2.2: the record at
position `floor(chunk_size * i / cluster_count)`): the integer part of the
exact quotient.  The source instead routes the computation through binary32
`float` division — see `sample_index_float` — and the two disagree once the
product exceeds the 24-bit significand. -/
def sample_index (chunk_size cluster_count cluster_id : Nat) : Nat :=
  chunk_size * (cluster_id + 1) / cluster_count

/-- Number of binary digits of `x`, for `x < 2 ^ 128` (all values arising
here): the unique `l` with `2 ^ (l - 1) ≤ x < 2 ^ l`, and `0` for `x = 0`. -/
def bitLen (x : Nat) : Nat :=
  ((Finset.range 128).filter (fun i => 2 ^ i ≤ x)).card

/-- Rounding of the positive quotient `num / den` to the nearest integer,
ties to the even neighbour — the IEEE-754 default rounding used by every
binary32 operation modelled below. -/
def roundHalfEven (num den : Nat) : Nat :=
  let q := num / den
  let r := num % den
  if 2 * r < den then q
  else if den < 2 * r then q + 1
  else if q % 2 = 0 then q else q + 1

/-- Binary32 value of an unsigned integer (`static_cast<float>` of a
`size_t`, round to nearest, ties to even): integers of at most 24 bits are
exact; longer ones keep their top 24 bits, rounded half to even.  Every such
value is again an integer, so the model stays in `Nat`. -/
def floatOfNat (x : Nat) : Nat :=
  if bitLen x ≤ 24 then x
  else roundHalfEven x (2 ^ (bitLen x - 24)) * 2 ^ (bitLen x - 24)

/-- Truncation toward zero (`static_cast<size_t>`) of the correctly rounded
binary32 quotient `a / b` of two positive integers that are themselves
binary32 values.  The quotient's exponent `e` (the unique one with
`2 ^ e ≤ a / b < 2 ^ (e + 1)`) is `bitLen a - bitLen b`, less one when the
scaled test fails; the significand is the quotient moved into
`[2 ^ 23, 2 ^ 24]` and rounded half to even; the float's value is the
significand scaled back, floored.  (All quotients arising here are far inside
the binary32 normal range, so neither overflow nor subnormals occur.) -/
def truncFloatDiv (a b : Nat) : Nat :=
  let e : Int := if b * 2 ^ bitLen a ≤ a * 2 ^ bitLen b
                 then (bitLen a : Int) - bitLen b
                 else (bitLen a : Int) - bitLen b - 1
  let up := (e - 23).toNat
  let down := (23 - e).toNat
  roundHalfEven (a * 2 ^ down) (b * 2 ^ up) * 2 ^ up / 2 ^ down

/-- Sampling position as the source computes it, `float` semantics included:
`static_cast<size_t>(chunk_size * (cluster_id + 1) / static_cast<float>(cluster_count))`
— the `size_t` product (wrapping modulo `2 ^ 64`), both operands converted to
binary32, the division correctly rounded in binary32, the result truncated
toward zero. -/
def sample_index_float (chunk_size cluster_count cluster_id : Nat) : Nat :=
  truncFloatDiv (floatOfNat (chunk_size * (cluster_id + 1) % 2 ^ 64))
    (floatOfNat cluster_count)

/-- Embeds the `std::map<T, size_t>` histogram keyed by sample value as a
key-sorted association list; `bump m v` is `++m[v]`, where `operator[]`
default-constructs an absent count at `0`, hence inserts `1`. -/
def bump : List (Int × Nat) → Int → List (Int × Nat)
  | [], v => [(v, 1)]
  | (key, cnt) :: rest, v =>
    if v = key then (key, cnt + 1) :: rest
    else if v < key then (v, 1) :: (key, cnt) :: rest
    else (key, cnt) :: bump rest v

/-- Inner loop of `_pick_sample_values` for one chunk: for every
`cluster_id < cluster_count - 1`, bump that cluster's histogram at the chunk
value found at the float-computed sampling position.  The source reads
`(*chunk_values)[index]` unchecked; an index at or past the chunk size (an
empty chunk, or float rounding pushing the index to the size) is an
out-of-bounds read — undefined behavior — modelled as `none`. -/
def _pick_sample_chunk (cluster_count : Nat) (sample_values : List (List (Int × Nat)))
    (chunk_values : MaterializedColumn) : Option (List (List (Int × Nat))) :=
  (List.range (cluster_count - 1)).foldl
    (fun osv cluster_id =>
      osv.bind (fun sv =>
        (chunk_values[sample_index_float chunk_values.length cluster_count cluster_id]?).map
          (fun entry => sv.set cluster_id (bump (sv.getD cluster_id []) entry.value))))
    (some sample_values)

/-- Embeds `RadixClusterSort::_pick_sample_values`; `none` as soon as any
chunk's sampling read is out of bounds. -/
def _pick_sample_values (cluster_count : Nat) (sample_values : List (List (Int × Nat)))
    (table : MaterializedColumnList) : Option (List (List (Int × Nat))) :=
  table.foldl
    (fun osv chunk_values => osv.bind (fun sv => _pick_sample_chunk cluster_count sv chunk_values))
    (some sample_values)

/-- Embeds `std::max_element` over one histogram with the source's comparator
`a.second < b.second`: the first entry (smallest key, since the map iterates
keys in ascending order) whose count no later entry strictly exceeds. -/
def maxByCount (m : List (Int × Nat)) : Option (Int × Nat) :=
  m.foldl
    (fun best p =>
      match best with
      | none => some p
      | some q => if q.2 < p.2 then some p else some q)
    none

/-- Split-value selection exactly as written in
`RadixClusterSort::_range_cluster`:
`split_values[cluster_id] = std::max_element(...)->second`, i.e. the COUNT of
the most frequent sample, implicitly converted to the value type. -/
def split_values_src (cluster_count : Nat) (sample_values : List (List (Int × Nat))) :
    List Int :=
  (List.range (cluster_count - 1)).map
    (fun cluster_id => (Int.ofNat ((maxByCount (sample_values.getD cluster_id [])).getD (0, 0)).2))

/-- Split-value selection as the spec words it: for each cluster, the VALUE
(`->first`) associated with the highest count, ties among counts broken by
the smaller value. -/
def split_values_intended (cluster_count : Nat) (sample_values : List (List (Int × Nat))) :
    List Int :=
  (List.range (cluster_count - 1)).map
    (fun cluster_id => ((maxByCount (sample_values.getD cluster_id [])).getD (0, 0)).1)

/-- Histogram construction of `_range_cluster`: both inputs contribute to the
same per-cluster histograms, left first; `none` on any out-of-bounds sampling
read. -/
def sample_histograms (cluster_count : Nat)
    (input_left input_right : MaterializedColumnList) : Option (List (List (Int × Nat))) :=
  (_pick_sample_values cluster_count (List.replicate (cluster_count - 1) []) input_left).bind
    (fun sv => _pick_sample_values cluster_count sv input_right)

/-- Split values `_range_cluster` actually computes for a pair of inputs. -/
def compute_split_values (cluster_count : Nat)
    (input_left input_right : MaterializedColumnList) : Option (List Int) :=
  (sample_histograms cluster_count input_left input_right).map (split_values_src cluster_count)

/-- Split values the spec prescribes at the same point. -/
def compute_split_values_intended (cluster_count : Nat)
    (input_left input_right : MaterializedColumnList) : Option (List Int) :=
  (sample_histograms cluster_count input_left input_right).map
    (split_values_intended cluster_count)

/-- Loop of the range `clusterer` lambda: scan the split values from low to
high, returning the running `cluster_id` at the first split value `≥ value`,
and `last` (instantiated with `cluster_count - 1`) when the scan falls
through. -/
def range_clusterer_go (value : Int) : List Int → Nat → Nat → Nat
  | [], _, last => last
  | s :: rest, cluster_id, last =>
    if value ≤ s then cluster_id else range_clusterer_go value rest (cluster_id + 1) last

/-- Embeds the range `clusterer` lambda of `_range_cluster`. -/
def range_clusterer (cluster_count : Nat) (split_values : List Int) (value : Int) : Nat :=
  range_clusterer_go value split_values 0 (cluster_count - 1)

/-- Embeds `RadixClusterSort::_range_cluster`: shared split values derived
from both inputs, then `_cluster` on each side with the range clusterer;
`none` when the sampling stage hits an out-of-bounds read. -/
def _range_cluster (cluster_count : Nat) (input_left input_right : MaterializedColumnList) :
    Option (MaterializedColumnList × MaterializedColumnList) :=
  (compute_split_values cluster_count input_left input_right).map (fun split_values =>
    (_cluster cluster_count (range_clusterer cluster_count split_values) input_left,
     _cluster cluster_count (range_clusterer cluster_count split_values) input_right))

/-- Embeds `RadixClusterSort::_sort_clusters`: each cluster sorted in place by
value (`std::sort` on `value <`, an unstable comparison sort, modelled by a
merge sort on the corresponding total `value ≤`: both return a permutation of
the cluster that is non-decreasing by value, and no settled claim depends on
the order of value ties). -/
def _sort_clusters (clusters : MaterializedColumnList) : MaterializedColumnList :=
  clusters.map (fun cluster => cluster.mergeSort (fun a b => decide (a.value ≤ b.value)))

/-- Modelled from the spec: the source table.  The storage representation is
an external collaborator (spec §1); what the driver consumes is the chunked
content of the join column, one `Entry` per row, and `Table::row_count`, the
total row count. -/
structure TableModel where
  chunks : List (List Entry)
deriving DecidableEq

/-- Row count of the modelled source table. -/
def TableModel.row_count (t : TableModel) : Nat :=
  (t.chunks.map List.length).sum

/-- Modelled from the spec: the column materializer (`column_materializer.hpp`
is not among the provided sources).  Per spec §4.1 it emits one record per
source row with chunk boundaries preserved, each chunk sorted by value when
`sort_per_chunk` is set. -/
def materialize (sort_per_chunk : Bool) (t : TableModel) : MaterializedColumnList :=
  if sort_per_chunk then
    t.chunks.map (fun c => c.mergeSort (fun a b => decide (a.value ≤ b.value)))
  else t.chunks

/-- Embeds `RadixClusterSort::execute`: materialize both inputs (per-chunk
sorted exactly in the non-equi case), then concatenate (`cluster_count == 1`),
radix-cluster (equi case) or range-cluster (otherwise), and finally sort every
cluster of both sides.  `none` exactly when the range path's sampling performs
an out-of-bounds read, where the program's behavior is undefined. -/
def execute (cluster_count : Nat) (equi_case : Bool) (left right : TableModel) :
    Option (MaterializedColumnList × MaterializedColumnList) :=
  let chunks_left := materialize (!equi_case) left
  let chunks_right := materialize (!equi_case) right
  let clustered :=
    if cluster_count = 1 then
      some (_concatenate_chunks chunks_left, _concatenate_chunks chunks_right)
    else if equi_case then
      some (_radix_cluster cluster_count chunks_left, _radix_cluster cluster_count chunks_right)
    else
      _range_cluster cluster_count chunks_left chunks_right
  clustered.map (fun p => (_sort_clusters p.1, _sort_clusters p.2))

/-- Scan types of `ScanType` reaching `predicate_selectivity`; `opLike`
stands for the remaining operators that all take the `default` branch. -/
inductive ScanType where
  | opEquals
  | opNotEquals
  | opLessThan
  | opLessThanEquals
  | opGreaterThan
  | opGreaterThanEquals
  | opBetween
  | opLike
deriving DecidableEq

/-- Ways an estimator call can abort: a failed `DebugAssert`, a dereference
of a null pointer, the `Fail` on a missing BETWEEN parameter, and the
`ConfigurationError` the spec names. -/
inductive CError where
  | assertionFailure
  | nullDeref
  | paramMissing
  | configurationError
deriving DecidableEq

/-- Returned `ColumnStatisticsContainer`: the selectivity plus optional
derived statistics `(distinct_count, min, max)`; the unchanged `column_id`
field is omitted. -/
structure ColumnStatsResult where
  selectivity : ℚ
  stats : Option (ℚ × ℚ × ℚ)
deriving DecidableEq

/-- Embeds the `OpLessThanEquals` block of the constant-value
`predicate_selectivity`, which is also reached by fallthrough from a
floating-point `OpLessThan` with `scan_type` still `OpLessThan` — hence the
`scan_type`-dependent guard copied from the source. -/
def lessThanEqualsCase (d lo hi : ℚ) (scan_type : ScanType) (value : ℚ) :
    Except CError ColumnStatsResult :=
  if value < lo ∨ (scan_type = .opLessThan ∧ value ≤ lo) then .ok ⟨0, none⟩
  else if value ≥ hi then .ok ⟨1, none⟩
  else
    let selectivity := (value - lo + 1) / (hi - lo + 1)
    .ok ⟨selectivity, some (selectivity * d, lo, value)⟩

/-- Embeds the `OpGreaterThanEquals` block of the constant-value
`predicate_selectivity`, also reached by fallthrough from a floating-point
`OpGreaterThan`. -/
def greaterThanEqualsCase (d lo hi : ℚ) (scan_type : ScanType) (value : ℚ) :
    Except CError ColumnStatsResult :=
  if value > hi ∨ (scan_type = .opGreaterThan ∧ value ≥ hi) then .ok ⟨0, none⟩
  else if value ≤ lo then .ok ⟨1, none⟩
  else
    let selectivity := (hi - value + 1) / (hi - lo + 1)
    .ok ⟨selectivity, some (selectivity * d, value, hi)⟩

/-- Embeds `ColumnStatistics<ColumnType>::predicate_selectivity`
(constant-value overload, arithmetic types) over the cached statistics
`d = distinct_count()`, `lo = min()`, `hi = max()`.  `isIntegral` selects the
`std::is_integral<ColumnType>` branches. -/
def predicate_selectivity_const (isIntegral : Bool) (d lo hi : ℚ) (scan_type : ScanType)
    (value : ℚ) (value2 : Option ℚ) : Except CError ColumnStatsResult :=
  match scan_type with
  | .opEquals =>
    if value < lo ∨ value > hi then .ok ⟨0, none⟩
    else .ok ⟨1 / d, some (1, value, value)⟩
  | .opNotEquals =>
    if value < lo ∨ value > hi then .ok ⟨1, none⟩
    else .ok ⟨(d - 1) / d, some (d - 1, lo, hi)⟩
  | .opLessThan =>
    if isIntegral then
      if value ≤ lo then .ok ⟨0, none⟩
      else
        let selectivity := (value - lo) / (hi - lo + 1)
        .ok ⟨selectivity, some (selectivity * d, lo, value - 1)⟩
    else lessThanEqualsCase d lo hi .opLessThan value
  | .opLessThanEquals => lessThanEqualsCase d lo hi .opLessThanEquals value
  | .opGreaterThan =>
    if isIntegral then
      if value ≥ hi then .ok ⟨0, none⟩
      else
        let selectivity := (hi - value) / (hi - lo + 1)
        .ok ⟨selectivity, some (selectivity * d, value + 1, hi)⟩
    else greaterThanEqualsCase d lo hi .opGreaterThan value
  | .opGreaterThanEquals => greaterThanEqualsCase d lo hi .opGreaterThanEquals value
  | .opBetween =>
    match value2 with
    | none => .error .paramMissing
    | some raw2 =>
      if value > raw2 ∨ value > hi ∨ raw2 < lo then .ok ⟨0, none⟩
      else
        let v := max value lo
        let v2 := min raw2 hi
        let selectivity := (v2 - v + 1) / (hi - lo + 1)
        .ok ⟨selectivity, some (selectivity * d, v, v2)⟩
  | .opLike => .ok ⟨1, none⟩

/-- Runtime column value types, deciding whether the
`dynamic_pointer_cast<ColumnStatistics<ColumnType>>` between two statistics
objects succeeds. -/
inductive ColType where
  | int32
  | int64
  | float32
  | float64
  | text
deriving DecidableEq

/-- Returned `TwoColumnStatisticsContainer`: the selectivity plus optional
derived statistics for the receiver and for the argument column. -/
structure TwoColumnResult where
  selectivity : ℚ
  stats_this : Option (ℚ × ℚ × ℚ)
  stats_value : Option (ℚ × ℚ × ℚ)
deriving DecidableEq

/-- Embeds `ColumnStatistics<ColumnType>::predicate_selectivity` (two-column
overload, arithmetic types).  The `dynamic_pointer_cast` succeeds exactly when
the argument statistics are of the receiver's column type.  The source then
runs `DebugAssert(value_column_statistics == nullptr, ...)` — active only in
debug builds, hence the `debug` flag — and afterwards unconditionally
dereferences the casted pointer (`value_column_statistics->min()`), a null
dereference whenever the cast failed. -/
def predicate_selectivity_two_col (debug : Bool) (this_type other_type : ColType)
    (d lo hi od olo ohi : ℚ) (scan_type : ScanType) : Except CError TwoColumnResult :=
  let casted : Option (ℚ × ℚ × ℚ) :=
    if this_type = other_type then some (od, olo, ohi) else none
  if debug && casted.isSome then .error .assertionFailure
  else
    match casted with
    | none => .error .nullDeref
    | some (vd, vlo, vhi) =>
      let common_min := max lo vlo
      let common_max := min hi vhi
      match scan_type with
      | .opEquals =>
        if common_min > common_max then .ok ⟨0, none, none⟩
        else
          let overlapping_frac_this := (common_max - common_min + 1) / (hi - lo + 1)
          let overlapping_frac_value := (common_max - common_min + 1) / (vhi - vlo + 1)
          let overlapping_distinct_count :=
            min (overlapping_frac_this * d) (overlapping_frac_value * vd)
          let probability_hit_value := vd / d
          .ok ⟨overlapping_distinct_count * probability_hit_value,
               some (overlapping_distinct_count, common_min, common_max),
               some (overlapping_distinct_count, common_min, common_max)⟩
      | _ => .ok ⟨1, none, none⟩

/-- Modelled from the spec: the bound table as seen through the aggregate
oracle (spec §6) — the distinct count and min/max the delegated aggregate
operator would report for the column. -/
structure TableOracle where
  distinct_count : ℚ
  min_val : ℚ
  max_val : ℚ

/-- Embeds `ColumnStatistics::update_distinct_count`: the result of
`_table.lock()` (`none` when the weak handle is dead) is used
unconditionally — wrapped in a `TableWrapper`, executed, and dereferenced for
`column_name` — with no aliveness check of any kind, so a dead handle is a
null dereference; a live one caches the aggregate's output row count. -/
def update_distinct_count (locked_table : Option TableOracle) : Except CError ℚ :=
  match locked_table with
  | none => .error .nullDeref
  | some t => .ok t.distinct_count

/-- Embeds `ColumnStatistics::update_min_max`: same control flow as
`update_distinct_count`, caching the aggregate's MIN and MAX cells. -/
def update_min_max (locked_table : Option TableOracle) : Except CError (ℚ × ℚ) :=
  match locked_table with
  | none => .error .nullDeref
  | some t => .ok (t.min_val, t.max_val)

/-- Selectivity component of a constant-predicate result (`0` for an aborted
call, which the paths considered never produce). -/
def selOf : Except CError ColumnStatsResult → ℚ
  | .ok r => r.selectivity
  | .error _ => 0

/-!
Helper lemmas about the clustering fold, sizes and the range scan.
-/

/-- Appending into a cluster does not change the number of clusters. -/
theorem appendAt_length (t : MaterializedColumnList) (i : Nat) (e : Entry) :
    (appendAt t i e).length = t.length := List.length_set t i _

/-- Reading back the cluster just written. -/
theorem getD_set_self (l : MaterializedColumnList) (i : Nat) (x : MaterializedColumn)
    (h : i < l.length) : (l.set i x).getD i [] = x := by
  rw [List.getD_eq_getElem?_getD, List.getElem?_set]
  simp [h]

/-- Writing one cluster leaves the others unchanged. -/
theorem getD_set_other (l : MaterializedColumnList) (i j : Nat) (x : MaterializedColumn)
    (h : i ≠ j) : (l.set i x).getD j [] = l.getD j [] := by
  rw [List.getD_eq_getElem?_getD, List.getElem?_set, if_neg h, ← List.getD_eq_getElem?_getD]

/-- The clustering fold preserves the number of clusters. -/
theorem clusterFold_length (cl : Int → Nat) (l : List Entry) (acc : MaterializedColumnList) :
    (l.foldl (fun a e => appendAt a (cl e.value) e) acc).length = acc.length := by
  induction l generalizing acc with
  | nil => rfl
  | cons e l ih => rw [List.foldl_cons, ih, appendAt_length]

/-- Content of cluster `c` after the clustering fold: what was there before,
followed by exactly the processed entries the clusterer sends to `c`, in
processing order. -/
theorem clusterFold_getD (cl : Int → Nat) (l : List Entry) (acc : MaterializedColumnList)
    (c : Nat) (hc : c < acc.length) :
    (l.foldl (fun a e => appendAt a (cl e.value) e) acc).getD c [] =
      acc.getD c [] ++ l.filter (fun e => cl e.value == c) := by
  induction l generalizing acc with
  | nil => simp
  | cons e l ih =>
    rw [List.foldl_cons, ih _ (by rw [appendAt_length]; exact hc), List.filter_cons]
    by_cases h : cl e.value = c
    · rw [if_pos (by simpa using h), appendAt, h, getD_set_self _ _ _ hc]
      simp
    · rw [if_neg (by simpa using h), appendAt, getD_set_other _ _ _ _ h]

/-- An in-range append grows the total size by exactly one. -/
theorem size_appendAt (acc : MaterializedColumnList) (i : Nat) (e : Entry)
    (h : i < acc.length) :
    _materialized_table_size (appendAt acc i e) = _materialized_table_size acc + 1 := by
  unfold appendAt _materialized_table_size
  induction acc generalizing i with
  | nil => cases h
  | cons x xs ih =>
    cases i with
    | zero => simp [List.set]; omega
    | succ n =>
      simp only [List.set, List.getD_cons_succ, List.map_cons, List.sum_cons]
      have := ih n (by simpa using h)
      simp only [_materialized_table_size] at this ⊢
      omega

/-- When every entry is sent to an existing cluster, the clustering fold grows
the total size by the number of entries processed. -/
theorem size_clusterFold (cl : Int → Nat) (l : List Entry) (acc : MaterializedColumnList)
    (h : ∀ e ∈ l, cl e.value < acc.length) :
    _materialized_table_size (l.foldl (fun a e => appendAt a (cl e.value) e) acc) =
      _materialized_table_size acc + l.length := by
  induction l generalizing acc with
  | nil => rfl
  | cons e l ih =>
    rw [List.foldl_cons,
      ih _ (fun e' he' => by rw [appendAt_length]; exact h e' (List.mem_cons_of_mem _ he')),
      size_appendAt _ _ _ (h e (List.mem_cons_self e l))]
    simp only [List.length_cons]
    omega

/-- Every record found in cluster `c` of a `_cluster` output was sent there by
the clustering function. -/
theorem mem_cluster (k : Nat) (cl : Int → Nat) (input : MaterializedColumnList)
    (c : Nat) (r : Entry) (h : r ∈ (_cluster k cl input).getD c []) : cl r.value = c := by
  by_cases hc : c < k
  · unfold _cluster at h
    rw [clusterFold_getD _ _ _ _ (by simpa using hc)] at h
    have hrep : (List.replicate k ([] : MaterializedColumn)).getD c [] = [] := by
      rw [List.getD_eq_getElem?_getD, List.getElem?_replicate, if_pos hc]
      rfl
    rw [hrep, List.nil_append] at h
    have := (List.mem_filter.mp h).2
    simpa using this
  · have hlen : (_cluster k cl input).length ≤ c := by
      unfold _cluster
      rw [clusterFold_length, List.length_replicate]
      omega
    rw [List.getD_eq_default _ _ hlen] at h
    cases h

/-- When the clustering function maps every entry below `cluster_count`,
`_cluster` preserves the total record count. -/
theorem size_cluster (k : Nat) (cl : Int → Nat) (input : MaterializedColumnList)
    (h : ∀ e ∈ input.flatten, cl e.value < k) :
    _materialized_table_size (_cluster k cl input) = _materialized_table_size input := by
  unfold _cluster
  rw [size_clusterFold _ _ _ (by simpa using h)]
  have : _materialized_table_size (List.replicate k ([] : MaterializedColumn)) = 0 := by
    simp [_materialized_table_size, List.map_replicate]
  rw [this, List.length_flatten]
  simp [_materialized_table_size]

/-- Sorting the clusters preserves the total record count. -/
theorem size_sort_clusters (t : MaterializedColumnList) :
    _materialized_table_size (_sort_clusters t) = _materialized_table_size t := by
  unfold _sort_clusters _materialized_table_size
  rw [List.map_map]
  congr 1
  apply List.map_congr_left
  intro c _
  simp [List.length_mergeSort]

/-- Concatenation preserves the total record count. -/
theorem size_concatenate (t : MaterializedColumnList) :
    _materialized_table_size (_concatenate_chunks t) = _materialized_table_size t := by
  simp [_concatenate_chunks, _materialized_table_size, List.length_flatten]

/-- Materialization emits one record per source row. -/
theorem size_materialize (b : Bool) (t : TableModel) :
    _materialized_table_size (materialize b t) = t.row_count := by
  cases b with
  | false => rfl
  | true =>
    have hm : materialize true t =
        t.chunks.map (fun c => c.mergeSort (fun a b => decide (a.value ≤ b.value))) := rfl
    rw [hm]
    simp only [_materialized_table_size, TableModel.row_count, List.map_map]
    congr 1
    apply List.map_congr_left
    intro c _
    simp [List.length_mergeSort]

/-- The radix clusterer always lands below `cluster_count`: masking with
`cluster_count - 1` bounds the result by `cluster_count - 1`. -/
theorem radix_clusterer_lt (k : Nat) (hk : 0 < k) (v : Int) : radix_clusterer k v < k := by
  have h1 : radix_clusterer k v ≤ k - 1 := Nat.and_le_right
  omega

/-- The range scan returns either its fallback or an offset index into the
split values. -/
theorem range_go_bound (v : Int) (s : List Int) (i last : Nat) :
    range_clusterer_go v s i last = last ∨
      ∃ j, j < s.length ∧ range_clusterer_go v s i last = i + j := by
  induction s generalizing i with
  | nil => exact Or.inl rfl
  | cons a rest ih =>
    simp only [range_clusterer_go]
    by_cases h : v ≤ a
    · rw [if_pos h]
      exact Or.inr ⟨0, by simp, by omega⟩
    · rw [if_neg h]
      rcases ih (i + 1) with h' | ⟨j, hj, h'⟩
      · exact Or.inl h'
      · exact Or.inr ⟨j + 1, by simpa using hj, by omega⟩

/-- With at most `cluster_count - 1` split values, the range clusterer always
lands below `cluster_count`. -/
theorem range_clusterer_lt (k : Nat) (hk : 0 < k) (s : List Int) (hs : s.length ≤ k - 1)
    (v : Int) : range_clusterer k s v < k := by
  unfold range_clusterer
  rcases range_go_bound v s 0 (k - 1) with h | ⟨j, hj, h⟩ <;> omega

/-- When no split value is `≥ value`, the range scan returns its fallback. -/
theorem range_go_none (v : Int) (s : List Int) (i last : Nat)
    (h : ∀ j, j < s.length → ¬ v ≤ s.getD j 0) : range_clusterer_go v s i last = last := by
  induction s generalizing i with
  | nil => rfl
  | cons a rest ih =>
    simp only [range_clusterer_go]
    rw [if_neg (by simpa using h 0 (by simp))]
    exact ih (i + 1) (fun j hj => h (j + 1) (by simpa using hj))

/-- When `j` is the first split index with `value ≤ split_values[j]`, the range
scan started at `i` returns `i + j`. -/
theorem range_go_found (v : Int) (s : List Int) (i last : Nat) (j : Nat) (hj : j < s.length)
    (hsat : v ≤ s.getD j 0) (hmin : ∀ j', j' < j → ¬ v ≤ s.getD j' 0) :
    range_clusterer_go v s i last = i + j := by
  induction s generalizing i j with
  | nil => cases hj
  | cons a rest ih =>
    simp only [range_clusterer_go]
    cases j with
    | zero =>
      rw [if_pos (by simpa using hsat)]
      omega
    | succ n =>
      rw [if_neg (by simpa using hmin 0 (Nat.succ_pos n))]
      have := ih (i + 1) n (by simpa using hj) (by simpa using hsat)
        (fun j' hj' => by simpa using hmin (j' + 1) (by omega))
      omega

/-- When the sampling stage completes, the driver builds exactly
`cluster_count - 1` split values. -/
theorem compute_split_values_length (k : Nat) (l r : MaterializedColumnList)
    (sv : List Int) (h : compute_split_values k l r = some sv) : sv.length = k - 1 := by
  unfold compute_split_values at h
  rcases Option.map_eq_some'.mp h with ⟨hist, _, hsv⟩
  rw [← hsv]
  simp [split_values_src]

/-- Whenever `execute` produces an output, both of its sides preserve the
source row counts, for every strictly positive `cluster_count` and all three
driver paths. -/
theorem execute_side_sizes (k : Nat) (hk : 0 < k) (equi : Bool) (L R : TableModel)
    (out : MaterializedColumnList × MaterializedColumnList)
    (hout : execute k equi L R = some out) :
    _materialized_table_size out.1 = L.row_count ∧
    _materialized_table_size out.2 = R.row_count := by
  simp only [execute] at hout
  by_cases h1 : k = 1
  · rw [if_pos h1, Option.map_some'] at hout
    rw [← Option.some.inj hout]
    exact ⟨by rw [size_sort_clusters, size_concatenate, size_materialize],
           by rw [size_sort_clusters, size_concatenate, size_materialize]⟩
  · rw [if_neg h1] at hout
    cases equi with
    | true =>
      rw [if_pos rfl, Option.map_some'] at hout
      rw [← Option.some.inj hout]
      simp only [_radix_cluster]
      exact ⟨by rw [size_sort_clusters,
               size_cluster _ _ _ (fun e _ => radix_clusterer_lt k hk e.value), size_materialize],
             by rw [size_sort_clusters,
               size_cluster _ _ _ (fun e _ => radix_clusterer_lt k hk e.value), size_materialize]⟩
    | false =>
      rw [if_neg (by simp)] at hout
      simp only [_range_cluster, Option.map_map] at hout
      rcases Option.map_eq_some'.mp hout with ⟨sv, hsv, hp⟩
      rw [← hp]
      have hlen := compute_split_values_length k _ _ sv hsv
      refine ⟨?_, ?_⟩ <;>
        rw [Function.comp, size_sort_clusters,
          size_cluster _ _ _
            (fun e _ => range_clusterer_lt k hk _ (by rw [hlen]) e.value),
          size_materialize]

/-- Integer `OpLessThan` branch of the constant-value overload, as a plain
conditional. -/
theorem predicate_selectivity_const_lt_int (d lo hi v : ℚ) :
    predicate_selectivity_const true d lo hi .opLessThan v none =
      if v ≤ lo then .ok ⟨0, none⟩
      else .ok ⟨(v - lo) / (hi - lo + 1), some ((v - lo) / (hi - lo + 1) * d, lo, v - 1)⟩ :=
  rfl

/-- Characterization of `bitLen` on its intended range. -/
theorem bitLen_eq_of (x l : Nat) (hl : l ≤ 128) (h1 : 1 ≤ l) (hlo : 2 ^ (l - 1) ≤ x)
    (hhi : x < 2 ^ l) : bitLen x = l := by
  unfold bitLen
  have hfilter : (Finset.range 128).filter (fun i => 2 ^ i ≤ x) = Finset.range l := by
    ext i
    simp only [Finset.mem_filter, Finset.mem_range]
    constructor
    · rintro ⟨_, hle⟩
      by_contra hcon
      push_neg at hcon
      have : 2 ^ l ≤ 2 ^ i := Nat.pow_le_pow_right (by omega) hcon
      omega
    · intro hi
      refine ⟨by omega, ?_⟩
      have : 2 ^ i ≤ 2 ^ (l - 1) := Nat.pow_le_pow_right (by omega) (by omega)
      omega
  rw [hfilter, Finset.card_range]

/-- A power of two has one binary digit more than its exponent. -/
theorem bitLen_two_pow (m : Nat) (hm : m ≤ 127) : bitLen (2 ^ m) = m + 1 := by
  apply bitLen_eq_of _ _ (by omega) (by omega)
  · simp
  · exact Nat.pow_lt_pow_right (by omega) (by omega)

/-- `bitLen` agrees with `Nat.log2 + 1` on positive inputs. -/
theorem bitLen_eq_log2 (x : Nat) (hx : x ≠ 0) (hbound : Nat.log2 x ≤ 127) :
    bitLen x = Nat.log2 x + 1 := by
  apply bitLen_eq_of _ _ (by omega) (by omega)
  · simpa using Nat.log2_self_le hx
  · exact Nat.lt_log2_self

/-- Rounding an exact quotient returns it. -/
theorem roundHalfEven_exact (a b : Nat) (h : b ∣ a) (hb : 0 < b) :
    roundHalfEven a b = a / b := by
  unfold roundHalfEven
  obtain ⟨c, rfl⟩ := h
  rw [Nat.mul_mod_right, if_pos (by omega)]

/-- Binary32 division of an exactly representable integer (at most 24 bits)
by a power of two is exact: the truncated quotient is the integer quotient. -/
theorem truncFloatDiv_pow_two (x L m : Nat) (hbx : bitLen x = L) (h1 : 1 ≤ L) (h24 : L ≤ 24)
    (hlo : 2 ^ (L - 1) ≤ x) (hm : 1 ≤ m) (hmB : m ≤ 63) :
    truncFloatDiv x (2 ^ m) = x / 2 ^ m := by
  unfold truncFloatDiv
  rw [hbx, bitLen_two_pow m (by omega)]
  have htest : 2 ^ m * 2 ^ L ≤ x * 2 ^ (m + 1) := by
    calc 2 ^ m * 2 ^ L = 2 ^ (L - 1) * 2 ^ (m + 1) := by
          rw [← pow_add, ← pow_add]
          congr 1
          omega
      _ ≤ x * 2 ^ (m + 1) := Nat.mul_le_mul_right _ hlo
  rw [if_pos htest]
  dsimp only
  have hup : ((L : Int) - ((m + 1 : Nat) : Int) - 23).toNat = 0 := by omega
  have hdown : ((23 : Int) - ((L : Int) - ((m + 1 : Nat) : Int))).toNat = 24 + m - L := by omega
  rw [hup, hdown]
  have hsplit : (2 : Nat) ^ (24 + m - L) = 2 ^ (24 - L) * 2 ^ m := by
    rw [← pow_add]
    congr 1
    omega
  have hdvd : 2 ^ m * 2 ^ 0 ∣ x * 2 ^ (24 + m - L) := by
    rw [pow_zero, Nat.mul_one, hsplit, ← Nat.mul_assoc]
    exact ⟨x * 2 ^ (24 - L), by ring⟩
  rw [roundHalfEven_exact _ _ hdvd (by positivity)]
  rw [pow_zero, Nat.mul_one, Nat.mul_one, hsplit, ← Nat.mul_assoc,
    Nat.mul_div_cancel _ (by positivity : 0 < 2 ^ m)]
  rw [Nat.mul_comm x (2 ^ (24 - L))]
  exact Nat.mul_div_mul_left x (2 ^ m) (by positivity)

/-!
Claim theorems.
-/

/-- C1 (code bug): the spec requires `split_values[i-1]` to be the sampled
VALUE whose count in the i-th histogram is highest (ties to the smaller
value); the source instead stores the max element's `second`, the COUNT.  At
`cluster_count = 2`, left chunks `[5,7]`, `[6,7]` and right chunk `[7,9]`
(single per-cluster histogram `7 ↦ 2, 9 ↦ 1`), the source computes split
value `2` where the spec demands the most frequent sample `7`. -/
theorem range_split_value_is_count :
    sample_histograms 2 [[⟨5, (0, 0)⟩, ⟨7, (0, 1)⟩], [⟨6, (1, 0)⟩, ⟨7, (1, 1)⟩]]
        [[⟨7, (0, 0)⟩, ⟨9, (0, 1)⟩]] = some [[(7, 2), (9, 1)]] ∧
    compute_split_values 2 [[⟨5, (0, 0)⟩, ⟨7, (0, 1)⟩], [⟨6, (1, 0)⟩, ⟨7, (1, 1)⟩]]
        [[⟨7, (0, 0)⟩, ⟨9, (0, 1)⟩]] = some [2] ∧
    compute_split_values_intended 2 [[⟨5, (0, 0)⟩, ⟨7, (0, 1)⟩], [⟨6, (1, 0)⟩, ⟨7, (1, 1)⟩]]
        [[⟨7, (0, 0)⟩, ⟨9, (0, 1)⟩]] = some [7] ∧
    ((2 : Int) ≠ 7) :=
  ⟨by decide, by decide, by decide, by decide⟩

/-- C2 (code bug): the spec bounds every returned selectivity by `[0, 1]` and
mandates a clamp for two-column equality; the source has no clamp.  At the
spec's own scenario S6 — receiver `(d 11, min 0, max 10)`, argument
`(d 11, min 5, max 15)`, matching column types, release build — the returned
selectivity is `6`, strictly above `1`. -/
theorem two_column_selectivity_exceeds_one :
    predicate_selectivity_two_col false .int32 .int32 11 0 10 11 5 15 .opEquals =
      .ok ⟨6, some (6, 5, 10), some (6, 5, 10)⟩ ∧ ¬ ((6 : ℚ) ≤ 1) := by
  constructor
  · norm_num [predicate_selectivity_two_col]
  · norm_num

/-- C3 (code bug): the claim says a two-column call with mismatched column
types raises TypeError while matching types raise nothing.  The source's
`DebugAssert(value_column_statistics == nullptr, ...)` is inverted: with
MATCHING types the cast succeeds and the debug assertion fires, and with
mismatched types the assertion passes and the source dereferences the null
cast result. -/
theorem two_column_type_check_inverted :
    predicate_selectivity_two_col true .int32 .int32 11 0 10 11 5 15 .opEquals =
      .error .assertionFailure ∧
    predicate_selectivity_two_col true .int32 .int64 11 0 10 11 5 15 .opEquals =
      .error .nullDeref := by
  constructor
  · simp only [predicate_selectivity_two_col, if_pos rfl]
    norm_num
  · have h : (ColType.int32 = ColType.int64) = False := by simp
    simp only [predicate_selectivity_two_col, h, if_false]
    simp

/-- C4 counterexample: at the valid `cluster_count = 2 = 2 ^ 1`, in the range
(non-equi) driver path, a left table consisting of one empty chunk makes the
sampling stage read `(*chunk_values)[0]` of an empty chunk — undefined
behavior — so `execute` yields no output at all, and the claimed unconditional
row-count preservation fails for this in-scope input. -/
theorem execute_undefined_on_empty_chunk :
    ((2 : Nat) = 2 ^ 1) ∧
    execute 2 false ⟨[[]]⟩ ⟨[[⟨1, (0, 0)⟩]]⟩ = none := by
  refine ⟨by decide, ?_⟩
  have h0 : materialize true ⟨[[]]⟩ = [[]] := by
    simp [materialize, List.mergeSort_nil]
  have h1 : materialize true ⟨[[⟨1, (0, 0)⟩]]⟩ = [[⟨1, (0, 0)⟩]] := by
    simp [materialize, List.mergeSort_singleton]
  have h2 : compute_split_values 2 [[]] [[⟨1, (0, 0)⟩]] = none := by decide
  simp only [execute, Bool.not_false, h0, h1, _range_cluster, h2]
  simp

/-- C4, amended: for every input table pair and every valid `cluster_count`
(a strictly positive power of two), whenever `execute` completes — the
concatenate and radix paths always do; the range path does unless its
sampling reads out of bounds, which is undefined behavior — the total size of
each side's output clusters equals that side's source row count. -/
theorem execute_row_count_preservation (cluster_count m : Nat)
    (hpow : cluster_count = 2 ^ m) (equi_case : Bool) (left right : TableModel)
    (out : MaterializedColumnList × MaterializedColumnList)
    (hout : execute cluster_count equi_case left right = some out) :
    _materialized_table_size out.1 = left.row_count ∧
    _materialized_table_size out.2 = right.row_count :=
  execute_side_sizes cluster_count (by rw [hpow]; positivity) equi_case left right out hout

/-- Witness for C4 at `cluster_count = 2 = 2 ^ 1`, the radix path, with a
three-row left table and a two-row right table; there `execute` returns its
output definitionally. -/
theorem execute_row_count_preservation_witness :
    ((2 : Nat) = 2 ^ 1) ∧
    execute 2 true ⟨[[⟨5, (0, 0)⟩, ⟨1, (0, 1)⟩, ⟨3, (0, 2)⟩]]⟩ ⟨[[⟨5, (0, 0)⟩, ⟨2, (0, 1)⟩]]⟩ =
      some
        (_sort_clusters (_radix_cluster 2 [[⟨5, (0, 0)⟩, ⟨1, (0, 1)⟩, ⟨3, (0, 2)⟩]]),
         _sort_clusters (_radix_cluster 2 [[⟨5, (0, 0)⟩, ⟨2, (0, 1)⟩]])) ∧
    (_materialized_table_size
        (_sort_clusters (_radix_cluster 2 [[⟨5, (0, 0)⟩, ⟨1, (0, 1)⟩, ⟨3, (0, 2)⟩]])) =
      TableModel.row_count ⟨[[⟨5, (0, 0)⟩, ⟨1, (0, 1)⟩, ⟨3, (0, 2)⟩]]⟩ ∧
     _materialized_table_size
        (_sort_clusters (_radix_cluster 2 [[⟨5, (0, 0)⟩, ⟨2, (0, 1)⟩]])) =
      TableModel.row_count ⟨[[⟨5, (0, 0)⟩, ⟨2, (0, 1)⟩]]⟩) :=
  ⟨by decide, rfl, by
    exact execute_row_count_preservation 2 1 (by decide) true
      ⟨[[⟨5, (0, 0)⟩, ⟨1, (0, 1)⟩, ⟨3, (0, 2)⟩]]⟩ ⟨[[⟨5, (0, 0)⟩, ⟨2, (0, 1)⟩]]⟩
      (_sort_clusters (_radix_cluster 2 [[⟨5, (0, 0)⟩, ⟨1, (0, 1)⟩, ⟨3, (0, 2)⟩]]),
       _sort_clusters (_radix_cluster 2 [[⟨5, (0, 0)⟩, ⟨2, (0, 1)⟩]])) rfl⟩

/-- C5: in radix mode every record placed in cluster `c` satisfies
`clusterer(r.value) = c` with
`clusterer v = get_radix v (cluster_count - 1)`, and consequently any two
records with equal values receive equal cluster ids. -/
theorem radix_colocation :
    (∀ (cluster_count : Nat) (input : MaterializedColumnList) (c : Nat) (r : Entry),
        r ∈ (_radix_cluster cluster_count input).getD c [] →
          radix_clusterer cluster_count r.value = c) ∧
    (∀ (cluster_count : Nat) (input : MaterializedColumnList) (c1 c2 : Nat) (r1 r2 : Entry),
        r1 ∈ (_radix_cluster cluster_count input).getD c1 [] →
        r2 ∈ (_radix_cluster cluster_count input).getD c2 [] →
        r1.value = r2.value → c1 = c2) := by
  constructor
  · intro k input c r h
    exact mem_cluster k (radix_clusterer k) input c r h
  · intro k input c1 c2 r1 r2 h1 h2 hv
    have e1 := mem_cluster k (radix_clusterer k) input c1 r1 h1
    have e2 := mem_cluster k (radix_clusterer k) input c2 r2 h2
    rw [← e1, ← e2, hv]

/-- Witness for C5: the record with value `3` lands in cluster `1` of a
2-cluster radix partition, and the radix clusterer indeed maps `3` to `1`. -/
theorem radix_colocation_witness :
    (⟨3, (0, 0)⟩ : Entry) ∈ (_radix_cluster 2 [[⟨3, (0, 0)⟩]]).getD 1 [] ∧
    radix_clusterer 2 (3 : Int) = 1 :=
  ⟨by decide, radix_colocation.1 2 [[⟨3, (0, 0)⟩]] 1 ⟨3, (0, 0)⟩ (by decide)⟩

/-- C6: for every value and every split-value vector of length
`cluster_count - 1`, the range cluster decision function returns the first
index `i` (scanning from low to high) with `value ≤ split_values[i]`, and
returns `cluster_count - 1` when no such index exists. -/
theorem range_clusterer_first_split (cluster_count : Nat) (split_values : List Int)
    (value : Int) (_hlen : split_values.length = cluster_count - 1) :
    ((∃ i, i < split_values.length ∧ value ≤ split_values.getD i 0) →
      range_clusterer cluster_count split_values value < split_values.length ∧
      value ≤ split_values.getD (range_clusterer cluster_count split_values value) 0 ∧
      (∀ j, j < range_clusterer cluster_count split_values value →
        ¬ value ≤ split_values.getD j 0)) ∧
    ((∀ i, i < split_values.length → ¬ value ≤ split_values.getD i 0) →
      range_clusterer cluster_count split_values value = cluster_count - 1) := by
  constructor
  · intro hex
    have hspec := Nat.find_spec hex
    have hmin : ∀ j', j' < Nat.find hex → ¬ value ≤ split_values.getD j' 0 := by
      intro j' hj'
      intro hv
      exact Nat.find_min hex hj' ⟨lt_trans hj' hspec.1, hv⟩
    have hgo : range_clusterer cluster_count split_values value = 0 + Nat.find hex :=
      range_go_found value split_values 0 _ (Nat.find hex) hspec.1 hspec.2 hmin
    rw [hgo, Nat.zero_add]
    exact ⟨hspec.1, hspec.2, hmin⟩
  · intro hall
    exact range_go_none value split_values 0 _ hall

/-- Witness for C6 at `cluster_count = 2`, split values `[5]`, value `3`:
the decision function returns index `0`. -/
theorem range_clusterer_first_split_witness :
    ([(5 : Int)].length = 2 - 1) ∧
    (((∃ i, i < [(5 : Int)].length ∧ (3 : Int) ≤ [(5 : Int)].getD i 0) →
        range_clusterer 2 [(5 : Int)] 3 < [(5 : Int)].length ∧
        (3 : Int) ≤ [(5 : Int)].getD (range_clusterer 2 [(5 : Int)] 3) 0 ∧
        (∀ j, j < range_clusterer 2 [(5 : Int)] 3 → ¬ (3 : Int) ≤ [(5 : Int)].getD j 0)) ∧
      ((∀ i, i < [(5 : Int)].length → ¬ (3 : Int) ≤ [(5 : Int)].getD i 0) →
        range_clusterer 2 [(5 : Int)] 3 = 2 - 1)) ∧
    range_clusterer 2 [(5 : Int)] 3 = 0 :=
  ⟨by decide, range_clusterer_first_split 2 [5] 3 (by decide), by decide⟩

/-- C7: for an integer-typed column with statistics `lo = min`, `hi = max`,
`d = distinct_count`, the constant predicate `< v` yields selectivity `0` with
no derived statistics when `v ≤ lo`, and otherwise selectivity
`(v - lo) / (hi - lo + 1)` with derived statistics
`(selectivity * d, lo, v - 1)`. -/
theorem less_than_selectivity_int (d lo hi v : ℚ) :
    (v ≤ lo → predicate_selectivity_const true d lo hi .opLessThan v none = .ok ⟨0, none⟩) ∧
    (lo < v →
      predicate_selectivity_const true d lo hi .opLessThan v none =
        .ok ⟨(v - lo) / (hi - lo + 1), some ((v - lo) / (hi - lo + 1) * d, lo, v - 1)⟩) := by
  rw [predicate_selectivity_const_lt_int]
  constructor
  · intro h
    rw [if_pos h]
  · intro h
    rw [if_neg (not_le.mpr h)]

/-- Witness for C7 at statistics `(d 5, min 10, max 20)` and `v = 15`:
selectivity `5/11` with derived statistics `(25/11, 10, 14)`. -/
theorem less_than_selectivity_int_witness :
    ((10 : ℚ) < 15) ∧
    predicate_selectivity_const true 5 10 20 .opLessThan 15 none =
      .ok ⟨((15 : ℚ) - 10) / (20 - 10 + 1),
           some (((15 : ℚ) - 10) / (20 - 10 + 1) * 5, 10, 15 - 1)⟩ :=
  ⟨by norm_num, (less_than_selectivity_int 5 10 20 15).2 (by norm_num)⟩

/-- C8 counterexample: when the weak table handle is dead, requesting a lazy
statistic does NOT fail with ConfigurationError — the source dereferences the
null `lock()` result. -/
theorem dead_table_error_not_configuration :
    update_distinct_count none = .error .nullDeref ∧
    update_distinct_count none ≠ .error .configurationError ∧
    update_min_max none = .error .nullDeref ∧
    update_min_max none ≠ .error .configurationError :=
  ⟨rfl, fun h => CError.noConfusion (Except.error.inj h),
   rfl, fun h => CError.noConfusion (Except.error.inj h)⟩

/-- C8 amended: when the weak table handle is dead, both lazy-statistic
updaters dereference the null handle (a crash, undefined behavior in the
source) instead of raising ConfigurationError. -/
theorem dead_table_lazy_statistic_null_deref :
    update_distinct_count none = .error .nullDeref ∧
    update_min_max none = .error .nullDeref :=
  ⟨rfl, rfl⟩

/-- C9: for an integer-typed column with valid statistics (`lo ≤ hi`), the
selectivity of the constant predicate `< v` is monotone in `v`. -/
theorem less_than_selectivity_monotone (d lo hi v1 v2 : ℚ) (hstats : lo ≤ hi)
    (h12 : v1 ≤ v2) :
    selOf (predicate_selectivity_const true d lo hi .opLessThan v1 none) ≤
      selOf (predicate_selectivity_const true d lo hi .opLessThan v2 none) := by
  have hden : (0 : ℚ) < hi - lo + 1 := by linarith
  rw [predicate_selectivity_const_lt_int, predicate_selectivity_const_lt_int]
  by_cases h1 : v1 ≤ lo
  · rw [if_pos h1]
    by_cases h2 : v2 ≤ lo
    · rw [if_pos h2]
    · rw [if_neg h2]
      simp only [selOf]
      exact div_nonneg (by linarith [not_le.mp h2]) (le_of_lt hden)
  · have h2 : ¬ v2 ≤ lo := fun h2 => h1 (le_trans h12 h2)
    rw [if_neg h1, if_neg h2]
    simp only [selOf]
    rw [div_le_div_iff₀ hden hden]
    nlinarith

/-- Witness for C9 at statistics `(min 10, max 20)` and `v1 = 12 ≤ v2 = 17`. -/
theorem less_than_selectivity_monotone_witness :
    ((10 : ℚ) ≤ 20) ∧ ((12 : ℚ) ≤ 17) ∧
    selOf (predicate_selectivity_const true 5 10 20 .opLessThan 12 none) ≤
      selOf (predicate_selectivity_const true 5 10 20 .opLessThan 17 none) :=
  ⟨by norm_num, by norm_num,
   less_than_selectivity_monotone 5 10 20 12 17 (by norm_num) (by norm_num)⟩

/-- C10 counterexample: inside the claim's scope (chunk size `3 ≥ 1`,
`cluster_count = 2 ^ 25 ≥ 2`, `cluster_id = 2 ^ 25 - 2 ≤ cluster_count - 2`,
a non-empty chunk) the source's float-routed computation reads index 3 of a
3-record chunk, out of bounds: the `size_t` product `100663293` rounds up to
`100663296` when converted to binary32, and its quotient by `2 ^ 25` is
exactly `3.0`.  The exact integer quotient the claim describes is `2`. -/
theorem sample_index_float_out_of_bounds :
    1 ≤ 3 ∧ 2 ≤ 2 ^ 25 ∧ (2 ^ 25 - 2 : Nat) ≤ 2 ^ 25 - 2 ∧
    sample_index_float 3 (2 ^ 25) (2 ^ 25 - 2) = 3 ∧
    sample_index 3 (2 ^ 25) (2 ^ 25 - 2) = 2 :=
  ⟨by decide, by decide, by decide, by decide, by decide⟩

/-- C10, amended: for every non-empty chunk, every valid
`cluster_count = 2 ^ m ≥ 2` in the `size_t` range, and every
`cluster_id ≤ cluster_count - 2`, PROVIDED the `size_t` product
`chunk_size * (cluster_id + 1)` stays below `2 ^ 24` (exactly representable
in binary32, as in every histogram-sized configuration), the float-computed
sampling index equals the exact integer quotient and stays strictly below the
chunk size.  Beyond that range the conversion to binary32 can round the
product up and push the index to the chunk size (see the counterexample). -/
theorem sample_index_float_in_bounds (chunk_size m cluster_id : Nat)
    (hn : 1 ≤ chunk_size) (hm : 1 ≤ m) (hmB : m ≤ 63)
    (hc : cluster_id ≤ 2 ^ m - 2)
    (hexact : chunk_size * (cluster_id + 1) < 2 ^ 24) :
    sample_index_float chunk_size (2 ^ m) cluster_id =
      sample_index chunk_size (2 ^ m) cluster_id ∧
    sample_index_float chunk_size (2 ^ m) cluster_id < chunk_size := by
  set x := chunk_size * (cluster_id + 1) with hxdef
  have hx1 : 1 ≤ x := Nat.one_le_iff_ne_zero.mpr (by positivity)
  have hlog : Nat.log2 x < 24 := (Nat.log2_lt (by omega)).mpr hexact
  have hbx : bitLen x = Nat.log2 x + 1 := bitLen_eq_log2 x (by omega) (by omega)
  have hmain : sample_index_float chunk_size (2 ^ m) cluster_id = x / 2 ^ m := by
    unfold sample_index_float
    rw [← hxdef]
    have hmod : x % 2 ^ 64 = x := by
      apply Nat.mod_eq_of_lt
      calc x < 2 ^ 24 := hexact
        _ ≤ 2 ^ 64 := Nat.pow_le_pow_right (by omega) (by omega)
    rw [hmod]
    have hfx : floatOfNat x = x := by
      unfold floatOfNat
      rw [if_pos (by omega)]
    have hfk : floatOfNat (2 ^ m) = 2 ^ m := by
      unfold floatOfNat
      rw [bitLen_two_pow m (by omega)]
      by_cases h24 : m + 1 ≤ 24
      · rw [if_pos h24]
      · rw [if_neg h24]
        have hdvd : 2 ^ (m + 1 - 24) ∣ 2 ^ m := pow_dvd_pow 2 (by omega)
        rw [roundHalfEven_exact _ _ hdvd (by positivity), Nat.div_mul_cancel hdvd]
    rw [hfx, hfk]
    exact truncFloatDiv_pow_two x (Nat.log2 x + 1) m hbx (by omega) (by omega)
      (by simpa using Nat.log2_self_le (by omega : x ≠ 0)) hm hmB
  constructor
  · rw [hmain]
    rfl
  · rw [hmain]
    rw [Nat.div_lt_iff_lt_mul (by positivity)]
    have hk2 : 2 ≤ 2 ^ m := by
      calc 2 = 2 ^ 1 := by norm_num
        _ ≤ 2 ^ m := Nat.pow_le_pow_right (by omega) hm
    exact mul_lt_mul_of_pos_left (by omega : cluster_id + 1 < 2 ^ m) (by omega)

/-- Witness for the amended C10 at chunk size `3`, `cluster_count = 2 ^ 2`,
`cluster_id = 2`: the float-computed index equals the exact index `2 < 3`. -/
theorem sample_index_float_in_bounds_witness :
    1 ≤ 3 ∧ 1 ≤ 2 ∧ 2 ≤ 63 ∧ 2 ≤ 2 ^ 2 - 2 ∧ 3 * (2 + 1) < 2 ^ 24 ∧
    (sample_index_float 3 (2 ^ 2) 2 = sample_index 3 (2 ^ 2) 2 ∧
     sample_index_float 3 (2 ^ 2) 2 < 3) :=
  ⟨by decide, by decide, by decide, by decide, by decide,
   sample_index_float_in_bounds 3 2 2 (by decide) (by decide) (by decide) (by decide)
     (by decide)⟩

end Opossum
